import Mathlib

/-!
# Verification of the AIMealPlanner core algorithms

Shallow embedding of the core selection and aggregation functions of
`app.py` (AIMealPlanner):

* `generate_meal_plan_with_ai` (app.py lines 585-714): the external-selection
  adapter.  The external provider call is modelled by an oracle
  (`Outcome`): either the call raises, or it produces a raw text body.
  The two provider branches (Gemini / OpenAI-compatible) are modelled by
  `Provider`; they differ exactly as in the source (only the Gemini branch
  removes markdown code fences).  `json.loads` is modelled by
  `pyJsonLoads`, a parser for the response contract's shape (JSON arrays
  of integers, also accepting string-literal elements and scalar values),
  restricted to that fragment of JSON.
* `select_recipes_for_week` (app.py lines 524-582): the recency-weighted
  sampler.  The random draw (`random.choice` / `random.choices`) is
  modelled by an injected index oracle `pick : Nat → Nat`; each step
  chooses `avail[pick step % avail.length]`, which covers every draw the
  source can make.  The weight table only influences the distribution of
  the draw, never the shape of the result; it is embedded separately as
  `recipeWeight` (over ℝ, mirroring the float computation symbolically).
* `_recipes_used_in_recent_plans` (app.py lines 492-522) and the
  recency-exclusion filter of `generate_meal_plan` (app.py lines 918-937).
  Dates are modelled as integer day ordinals; the result of the source's
  `strptime`-based date parsing is carried in the plan record as an
  `Option Int` (`none` = no parsable date), mirroring
  `_parse_plan_start_date`'s fallback chain from `start_date` to
  `created_at`.
* `generate_grocery_list` (app.py lines 717-760): the grocery aggregator.
  Python's insertion-ordered `defaultdict` is embedded as an association
  list updated in place; numeric quantities are modelled by ℤ.
-/

namespace MealPlanner

/-- Response text, modelled as a list of characters (Python `str`). -/
abbrev Text := List Char

/-- Python `str.strip()`: drop leading and trailing whitespace. -/
def pyStrip (s : Text) : Text :=
  ((s.dropWhile Char.isWhitespace).reverse.dropWhile Char.isWhitespace).reverse

/-- Python `str.lower()` on a string, modelled character-wise
(`String.toLower` is semantically identical but is implemented through
a byte-position loop that the kernel cannot evaluate). -/
def pyLower (s : String) : String := ⟨s.data.map Char.toLower⟩

/-- Python `str.strip()` on a string, via `pyStrip` on its characters. -/
def pyTrim (s : String) : String := ⟨pyStrip s.data⟩

/-- `result.startswith('```')`. -/
def startsWithFence : Text → Bool
  | '`' :: '`' :: '`' :: _ => true
  | _ => false

/-- `result.endswith('```')`. -/
def endsWithFence (s : Text) : Bool :=
  startsWithFence s.reverse

/-- `result.split('\n', 1)[1]`: everything after the first newline. -/
def afterFirstNewline (s : Text) : Text :=
  (s.dropWhile (· ≠ '\n')).drop 1

/-- `result.rstrip(',')`: drop trailing commas. -/
def dropTrailingCommas (s : Text) : Text :=
  (s.reverse.dropWhile (· = ',')).reverse

/-- An element of a parsed JSON array: an integer, or any other JSON
value (string literal, etc.), which `isinstance(idx, int)` rejects. -/
inductive JElem where
  | jint (n : Int)
  | jother
deriving DecidableEq, Repr

/-- A parsed top-level JSON value: an array, or any non-array value
(the source only asks `isinstance(order, list)`). -/
inductive JVal where
  | jarr (elems : List JElem)
  | jnonarr
deriving DecidableEq, Repr

/-- `isinstance(idx, int)` viewed as a partial cast. -/
def elemAsInt : JElem → Option Int
  | .jint n => some n
  | .jother => none

def skipWs (s : Text) : Text := s.dropWhile Char.isWhitespace

def natOfDigits (ds : List Char) : Nat :=
  ds.foldl (fun n c => 10 * n + (c.toNat - 48)) 0

/-- Parse a JSON integer token (optional minus sign, no leading zeros). -/
def parseJint (s : Text) : Option (Int × Text) :=
  let core : Text → Bool → Option (Int × Text) := fun t neg =>
    let ds := t.takeWhile Char.isDigit
    let rest := t.dropWhile Char.isDigit
    if ds.isEmpty then none
    else if 1 < ds.length ∧ ds.head? = some '0' then none
    else some ((if neg then -(natOfDigits ds : Int) else (natOfDigits ds : Int)), rest)
  match s with
  | '-' :: t => core t true
  | _ => core s false

/-- Parse one JSON array element of the response contract: an integer
or a string literal (no escape sequences modelled). -/
def parseElem (s : Text) : Option (JElem × Text) :=
  match s with
  | '"' :: t =>
    match t.dropWhile (· ≠ '"') with
    | '"' :: r => some (.jother, r)
    | _ => none
  | _ => (parseJint s).map (fun p => (.jint p.1, p.2))

/-- Parse the comma-separated items of a JSON array, up to and including
the closing bracket.  `fuel` bounds the recursion. -/
def parseItems : Nat → Text → Option (List JElem × Text)
  | 0, _ => none
  | fuel + 1, s =>
    match parseElem (skipWs s) with
    | none => none
    | some (e, rest) =>
      match skipWs rest with
      | ',' :: t => (parseItems fuel t).map (fun p => (e :: p.1, p.2))
      | ']' :: t => some ([e], t)
      | _ => none

/-- Model of `json.loads` on the response contract's fragment of JSON:
arrays of integers / string literals, or a scalar integer or string
(any successfully parsed non-array is collapsed to `JVal.jnonarr`). -/
def pyJsonLoads (s : Text) : Option JVal :=
  match skipWs s with
  | '[' :: t =>
    match skipWs t with
    | ']' :: r => if (skipWs r).isEmpty then some (.jarr []) else none
    | t2 =>
      match parseItems (t2.length + 1) t2 with
      | some (es, r) => if (skipWs r).isEmpty then some (.jarr es) else none
      | none => none
  | s1 =>
    match parseElem s1 with
    | some (_, r) => if (skipWs r).isEmpty then some .jnonarr else none
    | none => none

/-- The repaired text of the truncated-array fix-up:
`result.rstrip(',') + ']'` (app.py line 676). -/
def repairText (s : Text) : Text :=
  dropTrailingCommas s ++ [']']

/-- An ingredient quantity value as found in the recipe JSON: a number
or any non-numeric value.  Numbers are modelled by ℤ: the aggregation
only ever adds them, so the numeric carrier is inessential, and exact
Python floats are outside this model. -/
inductive PyVal where
  | num (q : ℤ)
  | other
deriving DecidableEq, Repr

/-- One ingredient record.  `item`/`unit` absent in the source dict is
modelled as the empty string (the source reads them with
`.get(..., '')`); an absent `quantity` key is `none`
(the source reads it with `.get('quantity', 0)`). -/
structure Ingredient where
  item : String := ""
  quantity : Option PyVal := none
  unit : String := ""
deriving DecidableEq, Repr

/-- One recipe record.  `name` is required (the source indexes
`recipe['name']`); the other fields are optional. -/
structure Recipe where
  id : Option Int := none
  name : String := ""
  category : Option String := none
  description : Option String := none
  ingredients : List Ingredient := []
deriving DecidableEq, Repr

instance : Inhabited Recipe := ⟨{}⟩

/-- `MAIN_DISH_CATEGORIES` (app.py line 467). -/
def MAIN_DISH_CATEGORIES : List String :=
  ["Beef", "Chicken", "Pork", "Pasta", "Pizza", "Beans", "Vegetable", "Sandwich", "Soup"]

/-- The provider branch taken inside `generate_meal_plan_with_ai`
(app.py line 623): Gemini or the OpenAI-compatible default. -/
inductive Provider where
  | gemini
  | openai
deriving DecidableEq, Repr

/-- Oracle for the external provider call: either some exception is
raised during client construction / the request, or a raw text body is
produced. -/
inductive Outcome where
  | throws
  | ok (raw : Text)
deriving DecidableEq, Repr

/-- The raw-text post-processing of app.py lines 636-659: both branches
strip surrounding whitespace (`.strip()`); only the Gemini branch then
removes markdown code fences (lines 641-647). -/
def adapterText (provider : Provider) (raw : Text) : Text :=
  let result := pyStrip raw
  match provider with
  | .gemini =>
    if startsWithFence result then
      let r1 := if result.contains '\n' then afterFirstNewline result else result.drop 3
      let r2 := if endsWithFence r1 then r1.take (r1.length - 3) else r1
      pyStrip r2
    else result
  | .openai => result

/-- The body of the keep-loop (app.py lines 693-696): keep `idx` when
`isinstance(idx, int) and 1 <= idx <= len(recipes) and idx not in
seen_indices`. -/
def keepStep (n : Nat) (acc : List Nat) : JElem → List Nat
  | .jint k =>
    if 1 ≤ k ∧ k ≤ (n : Int) ∧ ¬ acc.contains k.toNat then acc ++ [k.toNat] else acc
  | .jother => acc

/-- Phase 1 of the index selection (app.py lines 690-699): walk the
parsed list, keep the first occurrence of each in-range integer, and
break once `target` indices are collected (checked after each element,
as in the source). -/
def phase1 (n target : Nat) : List JElem → List Nat → List Nat
  | [], acc => acc
  | e :: rest, acc =>
    let acc' := keepStep n acc e
    if target ≤ acc'.length then acc' else phase1 n target rest acc'

/-- The fill loop (app.py lines 702-707): walk the given index list,
append each index not already kept, and break once `target` indices are
collected. -/
def fillLoop (target : Nat) : List Nat → List Nat → List Nat
  | [], acc => acc
  | i :: rest, acc =>
    if acc.contains i then fillLoop target rest acc
    else
      let acc' := acc ++ [i]
      if target ≤ acc'.length then acc' else fillLoop target rest acc'

/-- The complete index selection of app.py lines 689-709, producing the
1-based candidate indices in the order collected. -/
def selectIndices (order : List JElem) (n target : Nat) : List Nat :=
  let s1 := phase1 n target order []
  let s2 := if s1.length < target then fillLoop target (List.range' 1 n) s1 else s1
  s2.take target

/-- app.py lines 686-709: reject non-list values, otherwise map the
selected 1-based indices back to recipes. -/
def processParsed (v : JVal) (recipes : List Recipe) (target : Nat)
    (fallback : List Recipe) : List Recipe :=
  match v with
  | .jnonarr => fallback
  | .jarr order =>
    (selectIndices order recipes.length target).map (fun i => recipes.getD (i - 1) default)

/-- `generate_meal_plan_with_ai` (app.py lines 585-714).  `days = none`
models passing `days=None`; `provider` selects the branch of line 623;
`outcome` is the provider-call oracle. -/
def adapterTarget (recipes : List Recipe) (days : Option Int) : Nat :=
  (min (max (days.getD (recipes.length : Int)) 0) (recipes.length : Int)).toNat

def generate_meal_plan_with_ai (recipes : List Recipe) (days : Option Int)
    (provider : Provider) (outcome : Outcome) : List Recipe :=
  if recipes.isEmpty then []
  else
    let target : Nat := adapterTarget recipes days
    let fallback := recipes.take target
    match outcome with
    | .throws => fallback
    | .ok raw =>
      let text := adapterText provider raw
      if text.isEmpty then fallback
      else
        match pyJsonLoads text with
        | some v => processParsed v recipes target fallback
        | none =>
          if text.head? = some '[' ∧ text.getLast? ≠ some ']' then
            match pyJsonLoads (repairText text) with
            | some v => processParsed v recipes target fallback
            | none => fallback
          else fallback

/-- Recipe identity as used for weighting and deduplication:
`recipe.get('id', recipe.get('name'))` — the id when the key is
present, else the name (app.py lines 546, 553, 568). -/
def ident (r : Recipe) : Int ⊕ String :=
  match r.id with
  | some i => .inl i
  | none => .inr r.name

/-- The category filter of app.py lines 538 and 919:
`r.get('category', '') in MAIN_DISH_CATEGORIES`. -/
def mainDishes (all_recipes : List Recipe) : List Recipe :=
  all_recipes.filter (fun r => MAIN_DISH_CATEGORIES.contains (r.category.getD ""))

/-- The recency weight of one candidate identity (app.py lines 543-557):
weight starts at `1.0` and is multiplied by `0.3 ** (1.0 / weeks_ago)`
with `weeks_ago = i // 7 + 1` for every position `i` of the
previous-recipes sequence whose identity matches. -/
noncomputable def recipeWeight (previous : List Recipe) (rid : Int ⊕ String) : ℝ :=
  previous.enum.foldl
    (fun w ip =>
      if ident ip.2 = rid then w * (0.3 : ℝ) ^ ((1 : ℝ) / ((ip.1 / 7 : Nat) + 1)) else w)
    1

/-- The selection loop of app.py lines 560-580.  One recipe is drawn
from the remaining pool per iteration and removed
(`available_recipes.remove`, first structurally-equal entry).  The draw
itself (`random.choice` / `random.choices`) is abstracted by the index
oracle `pick`; every recipe of the remaining pool is drawable, which
covers both branches of the `total_weight == 0` test. -/
def sampleLoop (pick : Nat → Nat) : Nat → Nat → List Recipe → List Recipe
  | 0, _, _ => []
  | k + 1, step, avail =>
    if avail.isEmpty then []
    else
      let chosen := avail.getD (pick step % avail.length) default
      chosen :: sampleLoop pick k (step + 1) (avail.erase chosen)

/-- `select_recipes_for_week` (app.py lines 524-582) with the random
draw abstracted by the index oracle `pick`. -/
def select_recipes_for_week (all_recipes : List Recipe) (_previous : List Recipe)
    (days : Int) (pick : Nat → Nat) : List Recipe :=
  let main := mainDishes all_recipes
  if main.isEmpty then []
  else sampleLoop pick (min days (main.length : Int)).toNat 0 main

/-- A recipe key recorded by `_recipes_used_in_recent_plans`
(app.py lines 513-520): `('id', recipe_id)` or `('name', name)`. -/
inductive UsedKey where
  | byId (i : Int)
  | byName (s : String)
deriving DecidableEq, Repr

/-- Python `name.strip().lower()` as applied to recipe names
(app.py lines 518 and 928). -/
def pyNormName (s : String) : String := pyLower (pyTrim s)

/-- One stored meal plan, as read by `_recipes_used_in_recent_plans`.
Dates are integer day ordinals.  `start_date` / `created_at` hold the
result of the source's string-date parsing (`none` = missing or not
parsable), mirroring `_parse_plan_start_date` (app.py lines 470-489). -/
structure MealPlanEntry where
  start_date : Option Int := none
  created_at : Option Int := none
  days : Option Int := none
  recipes : List Recipe := []
deriving DecidableEq, Repr

/-- `_parse_plan_start_date` (app.py lines 470-489): the parsed
`start_date` when available, else the parsed `created_at`, else `none`. -/
def parsePlanStartDate (p : MealPlanEntry) : Option Int :=
  p.start_date.orElse (fun _ => p.created_at)

/-- `int(plan.get('days') or len(plan.get('recipes', [])) or 0)`
(app.py line 504): Python `or` falls through on falsy values
(`None` and `0`). -/
def planEffectiveDays (p : MealPlanEntry) : Int :=
  match p.days with
  | some d => if d ≠ 0 then d else (p.recipes.length : Int)
  | none => (p.recipes.length : Int)

/-- The keys contributed by one plan's recipes
(app.py lines 513-520): `('id', recipe_id)` when the id is present, and
`('name', normalized_name)` when the normalized name is non-empty. -/
def planKeys (p : MealPlanEntry) : List UsedKey :=
  p.recipes.flatMap (fun r =>
    (r.id.elim [] (fun i => [UsedKey.byId i])) ++
    (if pyNormName r.name ≠ "" then [UsedKey.byName (pyNormName r.name)] else []))

/-- The keys one plan contributes within the lookback window
(app.py lines 499-520): skipped when no start date parses, when the
effective day count is non-positive, or when the plan's date range does
not overlap the window. -/
def planWindowKeys (windowStart windowEnd : Int) (p : MealPlanEntry) : List UsedKey :=
  (parsePlanStartDate p).elim []
    (fun planStart =>
      if planEffectiveDays p ≤ 0 then []
      else if planStart + planEffectiveDays p - 1 < windowStart ∨ windowEnd < planStart then []
      else planKeys p)

/-- `_recipes_used_in_recent_plans` (app.py lines 492-522).  The Python
set is modelled as a list; only membership is used. -/
def recipesUsedInRecentPlans (meal_plans : List MealPlanEntry)
    (reference_start_date : Int) (lookback_days : Int) : List UsedKey :=
  meal_plans.flatMap
    (planWindowKeys (reference_start_date - lookback_days) (reference_start_date - 1))

/-- The recency-exclusion filter of `generate_meal_plan`
(app.py lines 924-934), applied to the category-filtered candidates. -/
def filterRecentlyUsed (mains : List Recipe) (meal_plans : List MealPlanEntry)
    (plan_start_date : Int) : List Recipe :=
  let keys := recipesUsedInRecentPlans meal_plans plan_start_date 14
  mains.filter (fun r =>
    let idIsRecent := r.id.elim false (fun i => keys.contains (UsedKey.byId i))
    let nm := pyNormName r.name
    let nameIsRecent := nm ≠ "" && keys.contains (UsedKey.byName nm)
    !idIsRecent && !nameIsRecent)

/-- One aggregation bucket of the grocery `defaultdict`
(app.py line 727): running quantity sum, chosen unit, and the list of
original `(quantity, unit, recipe_name)` contribution records. -/
structure GEntry where
  quantity : ℤ := 0
  unit : String := ""
  original : List (PyVal × String × String) := []
deriving DecidableEq, Repr

/-- One produced grocery line (app.py lines 751-758). -/
structure GroceryLine where
  item : String
  quantity : ℤ
  unit : String
  recipes : List String
deriving DecidableEq, Repr

/-- Processing of one ingredient contribution against its bucket
(app.py lines 736-748): always record the original entry; only a
numeric quantity is added to the sum, and only then may the unit be
set (first non-empty one wins). -/
def gStep (e : GEntry) : PyVal → String → String → GEntry
  | .num q, u, rname =>
    { quantity := e.quantity + q
      unit := if e.unit = "" ∧ u ≠ "" then u else e.unit
      original := e.original ++ [(PyVal.num q, u, rname)] }
  | .other, u, rname => { e with original := e.original ++ [(PyVal.other, u, rname)] }

/-- In-place update of the insertion-ordered association list modelling
the `defaultdict` bucket map. -/
def gUpdate (m : List (String × GEntry)) (k : String) (qv : PyVal)
    (u : String) (rname : String) : List (String × GEntry) :=
  match m with
  | [] => [(k, gStep {} qv u rname)]
  | (k', e) :: rest =>
    if k' = k then (k', gStep e qv u rname) :: rest
    else (k', e) :: gUpdate rest k qv u rname

/-- The double loop of app.py lines 729-748 over one recipe's
ingredients. -/
def gRecipeFold (m : List (String × GEntry)) (r : Recipe) : List (String × GEntry) :=
  r.ingredients.foldl
    (fun m ing =>
      let itemName := pyLower ing.item
      let qv := ing.quantity.getD (.num 0)
      if itemName ≠ "" then gUpdate m itemName qv ing.unit r.name else m)
    m

/-- Emission of one grocery line from a bucket (app.py lines 753-758). -/
def gLine (ke : String × GEntry) : GroceryLine :=
  { item := ke.1
    quantity := ke.2.quantity
    unit := ke.2.unit
    recipes := ke.2.original.map (fun o => o.2.2) }

/-- `generate_grocery_list` (app.py lines 717-760): fold all recipes
into the bucket map, sort by item key, and emit the lines.  Python's
`sorted` on the pairs is key-ascending (lexicographic by code point,
modelled as the order on the key's character list); the bucket keys are
pairwise distinct, so a sort by key alone is equivalent. -/
def generate_grocery_list (recipes : List Recipe) : List GroceryLine :=
  ((recipes.foldl gRecipeFold []).insertionSort (fun a b => a.1.data ≤ b.1.data)).map gLine

/-! ## Spec-side definitions

Definitions below this point follow the wording of the specification
(for refinement comparisons), not the source. -/

/-- Spec-side phase 1 of the adapter's index selection, following the
spec's words: "Walk the list in order; keep the first occurrence of
each integer `k` satisfying `1 ≤ k ≤ |candidates|` and not already
kept, until `target_count` valid indices are collected." -/
def specWalk (n target : Nat) : List JElem → List Nat → List Nat
  | [], kept => kept
  | e :: rest, kept =>
    if kept.length = target then kept
    else specWalk n target rest (keepStep n kept e)

/-- Spec-side index selection: the walk above, then "fill remaining
slots by walking indices `1..|candidates|` in order, skipping indices
already kept, until the target is reached". -/
def claimSelect (order : List JElem) (n target : Nat) : List Nat :=
  let kept := specWalk n target order []
  (kept ++ (List.range' 1 n).filter (fun i => !(kept.contains i))).take target

/-- A well-formed fenced provider body: ```` ```json ````, newline,
inner text, newline, ```` ``` ````. -/
def fenceWrap (inner : Text) : Text :=
  '`' :: '`' :: '`' :: 'j' :: 's' :: 'o' :: 'n' :: '\n' :: (inner ++ ['\n', '`', '`', '`'])

/-- One flattened ingredient contribution of the aggregation:
the lowercased item key, the effective quantity value, the unit, and
the contributing recipe's name. -/
structure Contrib where
  key : String
  qv : PyVal
  unit : String
  rname : String
deriving DecidableEq, Repr

/-- The contribution of one ingredient (skipped when the lowercased
item name is empty). -/
def ingContrib (rname : String) (ing : Ingredient) : Option Contrib :=
  if pyLower ing.item ≠ "" then
    some { key := pyLower ing.item, qv := ing.quantity.getD (.num 0),
           unit := ing.unit, rname := rname }
  else none

/-- The contributions of one recipe, in ingredient order, keeping only
ingredients with a non-empty (lowercased) item name. -/
def recipeContribs (r : Recipe) : List Contrib :=
  r.ingredients.filterMap (ingContrib r.name)

/-- All contributions of a recipe list, in processing order. -/
def flatContribs (recipes : List Recipe) : List Contrib :=
  recipes.flatMap recipeContribs

/-- `gUpdate` applied to one flattened contribution. -/
def gApply (m : List (String × GEntry)) (c : Contrib) : List (String × GEntry) :=
  gUpdate m c.key c.qv c.unit c.rname

/-- `gStep` applied to one flattened contribution. -/
def entryStep (e : GEntry) (c : Contrib) : GEntry :=
  gStep e c.qv c.unit c.rname

/-- The bucket obtained from a fresh default entry by a list of
contributions (the `defaultdict` default of app.py line 727). -/
def buildEntry (cs : List Contrib) : GEntry :=
  cs.foldl entryStep {}

/-- Association-list lookup on the bucket map. -/
def gFind : List (String × GEntry) → String → Option GEntry
  | [], _ => none
  | (k, e) :: rest, k' => if k = k' then some e else gFind rest k'

/-- Combination of a pre-existing bucket (when present) with further
contributions for the same key. -/
def combineEntry : Option GEntry → List Contrib → Option GEntry
  | some e, cs => some (cs.foldl entryStep e)
  | none, cs => if cs.isEmpty then none else some (buildEntry cs)

/-- The numeric value of a quantity (non-numeric counts 0). -/
def pyQty : PyVal → ℤ
  | .num q => q
  | .other => 0

/-- Whether a quantity value is numeric (`isinstance(q, (int, float))`). -/
def isNum : PyVal → Bool
  | .num _ => true
  | .other => false

/-- Sum of the numeric quantity contributions (non-numeric counts 0). -/
def numericSum (cs : List Contrib) : ℤ :=
  (cs.map (fun c => pyQty c.qv)).sum

/-- The unit the source actually chooses for a bucket: the first
non-empty unit among contributions whose quantity value is numeric. -/
def firstUnit : List Contrib → String
  | [] => ""
  | c :: rest => if isNum c.qv ∧ c.unit ≠ "" then c.unit else firstUnit rest

/-- The unit the claim describes: the first non-empty unit among all
contributions for the key, numeric or not. -/
def claimFirstUnit : List Contrib → String
  | [] => ""
  | c :: rest => if c.unit ≠ "" then c.unit else claimFirstUnit rest

/-- The item keys the claim describes for the aggregation: distinct
trimmed-and-lowercased non-empty item names. -/
def claimItemKeys (recipes : List Recipe) : List String :=
  (recipes.flatMap (fun r => r.ingredients.map (fun ing => pyLower (pyTrim ing.item)))).filter
    (fun s => s ≠ "") |>.dedup

/-! ## Concrete fixtures for witnesses and counterexamples -/

/-- Candidate 1 of the three-candidate scenarios. -/
def cand1 : Recipe := { id := some 1, name := "Chili", category := some "Beef" }

/-- Candidate 2 of the three-candidate scenarios. -/
def cand2 : Recipe := { id := some 2, name := "Carbonara", category := some "Pasta" }

/-- Candidate 3 of the three-candidate scenarios. -/
def cand3 : Recipe := { id := some 3, name := "Minestrone", category := some "Soup" }

/-- A candidate outside the main-dish allow-list. -/
def dessertRecipe : Recipe := { id := some 9, name := "Cake", category := some "Dessert" }

/-- Two distinct main-dish candidates sharing the identity `id = 1`. -/
def beefTwinA : Recipe := { id := some 1, name := "Stew", category := some "Beef" }

/-- Second candidate with the same `id = 1` identity. -/
def beefTwinB : Recipe := { id := some 1, name := "Roast", category := some "Beef" }

/-- A recipe whose two ingredients differ only by item whitespace. -/
def milkRecipe : Recipe :=
  { name := "MilkPie",
    ingredients :=
      [ { item := " Milk", quantity := some (.num 1), unit := "l" },
        { item := "Milk", quantity := some (.num 2), unit := "ml" } ] }

/-- A recipe whose first contribution for item `x` has a non-numeric
quantity but a non-empty unit. -/
def unitRecipe : Recipe :=
  { name := "Mix",
    ingredients :=
      [ { item := "x", quantity := some .other, unit := "cup" },
        { item := "x", quantity := some (.num 2), unit := "liter" } ] }

/-! ## General list helpers -/

theorem subperm_map {α β : Type} (f : α → β) {l₁ l₂ : List α} (h : List.Subperm l₁ l₂) :
    List.Subperm (l₁.map f) (l₂.map f) := by
  obtain ⟨l, hp, hs⟩ := h
  exact ⟨l.map f, hp.map f, hs.map f⟩

theorem subperm_nodup {α : Type} {l₁ l₂ : List α} (h : List.Subperm l₁ l₂) (hn : l₂.Nodup) :
    l₁.Nodup := by
  obtain ⟨l, hp, hs⟩ := h
  exact hp.nodup_iff.mp (hs.nodup hn)

/-! ## Sampler lemmas -/

theorem sampleLoop_subperm (pick : Nat → Nat) (k : Nat) :
    ∀ (step : Nat) (avail : List Recipe), List.Subperm (sampleLoop pick k step avail) avail := by
  induction k with
  | zero => intro step avail; simp [sampleLoop]
  | succ k ih =>
    intro step avail
    rw [sampleLoop]
    by_cases hne : avail.isEmpty
    · simp [hne]
    · simp only [hne, Bool.false_eq_true, if_false]
      have hlen : 0 < avail.length := by
        cases avail with
        | nil => simp at hne
        | cons a t => simp
      have hlt : pick step % avail.length < avail.length := Nat.mod_lt _ hlen
      have hmem : avail.getD (pick step % avail.length) default ∈ avail := by
        rw [List.getD_eq_getElem?_getD, List.getElem?_eq_getElem hlt]
        exact List.getElem_mem hlt
      refine List.Subperm.trans ?_ (List.Perm.subperm (List.perm_cons_erase hmem).symm)
      exact (List.subperm_cons _).mpr (ih _ _)

theorem sampleLoop_length (pick : Nat → Nat) (k : Nat) :
    ∀ (step : Nat) (avail : List Recipe), k ≤ avail.length →
      (sampleLoop pick k step avail).length = k := by
  induction k with
  | zero => intro step avail _; simp [sampleLoop]
  | succ k ih =>
    intro step avail hk
    rw [sampleLoop]
    have hlen : 0 < avail.length := lt_of_lt_of_le (Nat.succ_pos k) hk
    have hne : ¬ avail.isEmpty := by
      cases avail with
      | nil => simp at hlen
      | cons a t => simp
    simp only [hne, Bool.false_eq_true, if_false, List.length_cons]
    have hlt : pick step % avail.length < avail.length := Nat.mod_lt _ hlen
    have hmem : avail.getD (pick step % avail.length) default ∈ avail := by
      rw [List.getD_eq_getElem?_getD, List.getElem?_eq_getElem hlt]
      exact List.getElem_mem hlt
    have herase : (avail.erase (avail.getD (pick step % avail.length) default)).length
        = avail.length - 1 := List.length_erase_of_mem hmem
    rw [ih _ _ (by omega)]

theorem sampleLoop_subset (pick : Nat → Nat) (k step : Nat) (avail : List Recipe)
    {r : Recipe} (hr : r ∈ sampleLoop pick k step avail) : r ∈ avail :=
  (sampleLoop_subperm pick k step avail).subset hr

theorem mem_mainDishes {all_recipes : List Recipe} {r : Recipe}
    (h : r ∈ mainDishes all_recipes) :
    r ∈ all_recipes ∧ (r.category.getD "") ∈ MAIN_DISH_CATEGORIES := by
  have := List.mem_filter.mp h
  refine ⟨this.1, ?_⟩
  have hb := this.2
  simpa [List.contains, List.elem_iff] using hb

end MealPlanner

namespace MealPlanner

/-! ## Claim C10 -/

/-- C10: every recipe returned by the sampler (`select_recipes_for_week`)
has a category in the fixed main-dish allow-list: the sampler re-applies
the category filter to its own input, so a candidate with a category
outside the allow-list (or absent) is never selected. -/
theorem sampler_only_main_dish_categories
    (all_recipes previous : List Recipe) (days : Int) (pick : Nat → Nat) (r : Recipe)
    (hr : r ∈ select_recipes_for_week all_recipes previous days pick) :
    (r.category.getD "") ∈ MAIN_DISH_CATEGORIES := by
  unfold select_recipes_for_week at hr
  by_cases h : (mainDishes all_recipes).isEmpty
  · simp [h] at hr
  · simp only [h, Bool.false_eq_true, if_false] at hr
    exact (mem_mainDishes (sampleLoop_subset pick _ 0 _ hr)).2

/-- Witness for C10 at a concrete input: from the pool
`[cand1, dessertRecipe]` with one day, `cand1` is selected, and its
category is on the allow-list. -/
theorem sampler_only_main_dish_categories_witness :
    cand1 ∈ select_recipes_for_week [cand1, dessertRecipe] [] 1 (fun _ => 0) ∧
    (cand1.category.getD "") ∈ MAIN_DISH_CATEGORIES :=
  ⟨by decide,
   sampler_only_main_dish_categories [cand1, dessertRecipe] [] 1 (fun _ => 0) cand1 (by decide)⟩

/-! ## Claim C5 -/

/-- C5 counterexample: the sampler's output length is
`min(day_count, |main-dish candidates|)`, not
`min(day_count, |candidates|)` — a candidate outside the main-dish
allow-list is dropped, so `[dessertRecipe]` with `day_count = 1` yields
an empty selection; and two distinct candidates sharing an identity
(`id = 1`) can both be selected, so the selected identities need not be
pairwise distinct. -/
theorem sampler_contract_counterexample :
    (select_recipes_for_week [dessertRecipe] [] 1 (fun _ => 0)).length ≠
      min 1 [dessertRecipe].length ∧
    select_recipes_for_week [beefTwinA, beefTwinB] [] 2 (fun _ => 0) =
      [beefTwinA, beefTwinB] ∧
    ident beefTwinA = ident beefTwinB := by
  refine ⟨by decide, by decide, by decide⟩

/-- C5 as amended: for every candidate list and day count the sampler
returns `min(day_count, |main-dish candidates|)` recipes, drawn without
replacement from the main-dish candidates (so an empty candidate list
yields an empty sequence), and the selected identities are pairwise
distinct whenever the main-dish candidates' identities are pairwise
distinct. -/
theorem sampler_contract_amended (all_recipes previous : List Recipe) (d : Nat)
    (pick : Nat → Nat) :
    (select_recipes_for_week all_recipes previous (d : Int) pick).length =
      min d (mainDishes all_recipes).length ∧
    List.Subperm (select_recipes_for_week all_recipes previous (d : Int) pick)
      (mainDishes all_recipes) ∧
    (((mainDishes all_recipes).map ident).Nodup →
      ((select_recipes_for_week all_recipes previous (d : Int) pick).map ident).Nodup) := by
  have hto : (min (d : Int) ((mainDishes all_recipes).length : Int)).toNat =
      min d (mainDishes all_recipes).length := by
    rw [← Nat.cast_min, Int.toNat_natCast]
  unfold select_recipes_for_week
  by_cases h : (mainDishes all_recipes).isEmpty
  · have h0 : (mainDishes all_recipes).length = 0 := List.isEmpty_iff_length_eq_zero.mp h
    simp [h, h0]
  · simp only [h, Bool.false_eq_true, if_false, hto]
    refine ⟨?_, sampleLoop_subperm pick _ 0 _, fun hn => ?_⟩
    · exact sampleLoop_length pick _ 0 _ (Nat.min_le_right _ _)
    · exact subperm_nodup (subperm_map ident (sampleLoop_subperm pick _ 0 _)) hn

/-- Witness for C5 (amended) at a concrete input: two main-dish
candidates with distinct identities, two days. -/
theorem sampler_contract_amended_witness :
    (select_recipes_for_week [cand1, cand2] [] (2 : Int) (fun _ => 0)).length =
      min 2 (mainDishes [cand1, cand2]).length ∧
    ((select_recipes_for_week [cand1, cand2] [] (2 : Int) (fun _ => 0)).map ident).Nodup := by
  have h := sampler_contract_amended [cand1, cand2] [] 2 (fun _ => 0)
  exact ⟨h.1, h.2.2 (by decide)⟩

end MealPlanner

namespace MealPlanner

/-! ## Claim C6 -/

theorem foldl_weight_step (rid : Int ⊕ String) :
    ∀ (l : List (Nat × Recipe)) (a : ℝ),
      l.foldl
        (fun w ip =>
          if ident ip.2 = rid then w * (0.3 : ℝ) ^ ((1 : ℝ) / ((ip.1 / 7 : Nat) + 1)) else w)
        a =
      a * ((l.filter (fun ip => ident ip.2 = rid)).map
        (fun ip => (0.3 : ℝ) ^ ((1 : ℝ) / ((ip.1 / 7 : Nat) + 1)))).prod := by
  intro l
  induction l with
  | nil => intro a; simp
  | cons x t ih =>
    intro a
    simp only [List.foldl_cons, List.filter_cons]
    by_cases h : ident x.2 = rid
    · rw [if_pos h, ih, if_pos (by simp [h]), List.map_cons, List.prod_cons, mul_assoc]
    · rw [if_neg h, ih, if_neg (by simp [h])]

/-- C6: every candidate starts with weight `1.0`; the final weight is
the product, over the 0-based positions `i` of the recent-usage
sequence whose recipe matches the candidate identity, of
`0.3 ^ (1 / (i / 7 + 1))` (matches compound multiplicatively); and a
recipe matched only at position 0 ends with a strictly lower weight
than the same recipe matched only at position 13. -/
theorem recipeWeight_decay :
    (∀ rid, recipeWeight [] rid = 1) ∧
    (∀ (previous : List Recipe) (rid : Int ⊕ String),
      recipeWeight previous rid =
        ((previous.enum.filter (fun ip => ident ip.2 = rid)).map
          (fun ip => (0.3 : ℝ) ^ ((1 : ℝ) / ((ip.1 / 7 : Nat) + 1)))).prod) ∧
    recipeWeight [cand1] (ident cand1) <
      recipeWeight (List.replicate 13 cand2 ++ [cand1]) (ident cand1) := by
  refine ⟨fun rid => by simp [recipeWeight], ?_, ?_⟩
  · intro previous rid
    rw [recipeWeight, foldl_weight_step, one_mul]
  · have h1 : recipeWeight [cand1] (ident cand1) = (0.3 : ℝ) ^ (1 : ℝ) := by
      simp [recipeWeight, List.enum, List.enumFrom]
    have h2 : recipeWeight (List.replicate 13 cand2 ++ [cand1]) (ident cand1) =
        (0.3 : ℝ) ^ ((1 : ℝ) / 2) := by
      have hid : ¬ ident cand2 = ident cand1 := by decide
      norm_num [recipeWeight, List.replicate, List.enum, List.enumFrom, hid,
        List.foldl_cons, ident, cand1, cand2]
    rw [h1, h2]
    exact Real.rpow_lt_rpow_of_exponent_gt (by norm_num) (by norm_num) (by norm_num)

end MealPlanner

namespace MealPlanner

/-! ## Claim C4 -/

theorem pyStrip_snoc_ws {c : Char} (hc : c.isWhitespace) :
    ∀ xs : Text, pyStrip (xs ++ [c]) = pyStrip xs := by
  intro xs
  induction xs with
  | nil => simp [pyStrip, hc]
  | cons x t ih =>
    by_cases hx : x.isWhitespace
    · simpa [pyStrip, List.dropWhile_cons_of_pos hx] using ih
    · simp only [pyStrip, List.cons_append] at ih ⊢
      rw [List.dropWhile_cons_of_neg hx, List.dropWhile_cons_of_neg hx,
        show (x :: (t ++ [c])).reverse = c :: (x :: t).reverse by simp,
        List.dropWhile_cons_of_pos hc]

theorem pyStrip_fenceWrap (inner : Text) : pyStrip (fenceWrap inner) = fenceWrap inner := by
  have hrev : (fenceWrap inner).reverse =
      '`' :: '`' :: '`' :: '\n' ::
        (inner.reverse ++ ['\n', 'n', 'o', 's', 'j', '`', '`', '`']) := by
    simp [fenceWrap]
  rw [pyStrip, fenceWrap]
  rw [List.dropWhile_cons_of_neg (by simp)]
  rw [show ('`' :: '`' :: '`' :: 'j' :: 's' :: 'o' :: 'n' :: '\n' ::
      (inner ++ ['\n', '`', '`', '`'])) = fenceWrap inner from rfl, hrev]
  rw [List.dropWhile_cons_of_neg (by simp)]
  rw [← hrev, List.reverse_reverse]

theorem afterFirstNewline_fenceWrap (inner : Text) :
    afterFirstNewline (fenceWrap inner) = inner ++ ['\n', '`', '`', '`'] := by
  simp [afterFirstNewline, fenceWrap]

theorem contains_newline_fenceWrap (inner : Text) :
    (fenceWrap inner).contains '\n' = true := by
  simp [fenceWrap, List.contains]

theorem endsWithFence_suffix (inner : Text) :
    endsWithFence (inner ++ ['\n', '`', '`', '`']) = true := by
  rw [endsWithFence]
  have : (inner ++ ['\n', '`', '`', '`']).reverse =
      '`' :: '`' :: '`' :: '\n' :: inner.reverse := by simp
  rw [this, startsWithFence]

theorem take_cut_fence (inner : Text) :
    (inner ++ ['\n', '`', '`', '`']).take ((inner ++ ['\n', '`', '`', '`']).length - 3) =
      inner ++ ['\n'] := by
  have hlen : (inner ++ ['\n', '`', '`', '`']).length - 3 = inner.length + 1 := by
    simp
  rw [hlen, List.take_append_eq_append_take, List.take_of_length_le (by omega),
    show inner.length + 1 - inner.length = 1 by omega]
  rfl

/-- C4 counterexample: a code-fenced body reaches the JSON parse
unchanged in the OpenAI-compatible branch — only the Gemini branch
strips the fences — so the same fenced response is honoured under
Gemini but falls back under OpenAI. -/
theorem fence_strip_counterexample :
    adapterText .openai (fenceWrap ['[', '2', ',', ' ', '1', ']']) ≠
      adapterText .gemini (fenceWrap ['[', '2', ',', ' ', '1', ']']) ∧
    adapterText .openai (fenceWrap ['[', '2', ',', ' ', '1', ']']) =
      fenceWrap ['[', '2', ',', ' ', '1', ']'] ∧
    startsWithFence (adapterText .openai (fenceWrap ['[', '2', ',', ' ', '1', ']'])) = true ∧
    generate_meal_plan_with_ai [cand1, cand2] (some 2) .openai
      (.ok (fenceWrap ['[', '2', ',', ' ', '1', ']'])) = [cand1, cand2] ∧
    generate_meal_plan_with_ai [cand1, cand2] (some 2) .gemini
      (.ok (fenceWrap ['[', '2', ',', ' ', '1', ']'])) = [cand2, cand1] := by
  refine ⟨by decide, by decide, by decide, by decide, by decide⟩

/-- C4 as amended: both branches strip leading/trailing whitespace from
the raw body, but only the Gemini branch strips code-fence markers; the
OpenAI-compatible branch passes the whitespace-trimmed text to the JSON
parse as is, while the Gemini branch reduces a well-formed
```` ```json ````-fenced body to its trimmed inner text. -/
theorem adapter_strip_amended :
    (∀ raw : Text, adapterText .openai raw = pyStrip raw) ∧
    (∀ inner : Text, adapterText .gemini (fenceWrap inner) = pyStrip inner) := by
  constructor
  · intro raw; rfl
  · intro inner
    show (if startsWithFence (pyStrip (fenceWrap inner)) then _ else _) = _
    rw [pyStrip_fenceWrap]
    rw [if_pos (by rw [fenceWrap, startsWithFence])]
    rw [contains_newline_fenceWrap, if_pos rfl]
    rw [afterFirstNewline_fenceWrap, endsWithFence_suffix, if_pos rfl]
    rw [take_cut_fence, pyStrip_snoc_ws (by decide) inner]

end MealPlanner

namespace MealPlanner

/-! ## Index-selection lemmas -/

theorem specWalk_of_length_eq (n t : Nat) (order : List JElem) (acc : List Nat)
    (h : acc.length = t) : specWalk n t order acc = acc := by
  cases order with
  | nil => rfl
  | cons e rest => rw [specWalk, if_pos h]

theorem keepStep_length_le (n : Nat) (acc : List Nat) (e : JElem) :
    (keepStep n acc e).length ≤ acc.length + 1 := by
  cases e with
  | jother => simp [keepStep]
  | jint k =>
    rw [keepStep]
    by_cases hcond : 1 ≤ k ∧ k ≤ (n : Int) ∧ ¬ acc.contains k.toNat
    · rw [if_pos hcond]; simp
    · rw [if_neg hcond]; omega

theorem keepStep_props (n : Nat) (acc : List Nat) (e : JElem)
    (h1 : acc.Nodup) (h2 : ∀ i ∈ acc, 1 ≤ i ∧ i ≤ n) :
    (keepStep n acc e).Nodup ∧ (∀ i ∈ keepStep n acc e, 1 ≤ i ∧ i ≤ n) := by
  cases e with
  | jother => exact ⟨h1, h2⟩
  | jint k =>
    rw [keepStep]
    by_cases hcond : 1 ≤ k ∧ k ≤ (n : Int) ∧ ¬ acc.contains k.toNat
    · rw [if_pos hcond]
      have hknot : k.toNat ∉ acc := by
        intro hmem
        exact hcond.2.2 (by simp [List.contains, hmem])
      constructor
      · simp [List.nodup_append, h1, hknot]
      · intro i hi
        rcases List.mem_append.mp hi with hi | hi
        · exact h2 i hi
        · have hik : i = k.toNat := by simpa using hi
          subst hik
          obtain ⟨hk1, hk2, _⟩ := hcond
          omega
    · rw [if_neg hcond]; exact ⟨h1, h2⟩

theorem phase1_eq_specWalk (n t : Nat) :
    ∀ (order : List JElem) (acc : List Nat), acc.length < t →
      phase1 n t order acc = specWalk n t order acc := by
  intro order
  induction order with
  | nil => intro acc _; rfl
  | cons e rest ih =>
    intro acc hlt
    rw [phase1, specWalk, if_neg (show ¬ acc.length = t by omega)]
    show (if t ≤ (keepStep n acc e).length then keepStep n acc e
      else phase1 n t rest (keepStep n acc e)) = specWalk n t rest (keepStep n acc e)
    have hb := keepStep_length_le n acc e
    by_cases ht : t ≤ (keepStep n acc e).length
    · rw [if_pos ht, specWalk_of_length_eq n t rest _ (by omega)]
    · rw [if_neg ht]
      exact ih _ (by omega)

theorem specWalk_props (n t : Nat) :
    ∀ (order : List JElem) (acc : List Nat),
      acc.Nodup → (∀ i ∈ acc, 1 ≤ i ∧ i ≤ n) → acc.length ≤ t →
      (specWalk n t order acc).Nodup ∧
      (∀ i ∈ specWalk n t order acc, 1 ≤ i ∧ i ≤ n) ∧
      (specWalk n t order acc).length ≤ t := by
  intro order
  induction order with
  | nil => intro acc h1 h2 h3; exact ⟨h1, h2, h3⟩
  | cons e rest ih =>
    intro acc h1 h2 h3
    rw [specWalk]
    by_cases heq : acc.length = t
    · rw [if_pos heq]; exact ⟨h1, h2, h3⟩
    · rw [if_neg heq]
      obtain ⟨p1, p2⟩ := keepStep_props n acc e h1 h2
      have hb := keepStep_length_le n acc e
      exact ih _ p1 p2 (by omega)

theorem fillLoop_eq (t : Nat) :
    ∀ (l acc : List Nat), l.Nodup → acc.length < t →
      fillLoop t l acc =
        acc ++ (l.filter (fun i => !(acc.contains i))).take (t - acc.length) := by
  intro l
  induction l with
  | nil => intro acc _ _; simp [fillLoop]
  | cons i rest ih =>
    intro acc hnd hlt
    obtain ⟨hirest, hndrest⟩ := List.nodup_cons.mp hnd
    rw [fillLoop]
    by_cases hc : acc.contains i
    · have hmemi : i ∈ acc := by simpa [List.contains] using hc
      rw [if_pos hc, ih acc hndrest hlt, List.filter_cons,
        if_neg (show ¬ ((!acc.contains i) = true) by simp [List.contains, hmemi])]
    · have hmemi : i ∉ acc := by simpa [List.contains] using hc
      rw [if_neg hc, List.filter_cons,
        if_pos (show (!acc.contains i) = true by simp [List.contains, hmemi])]
      show (if t ≤ (acc ++ [i]).length then acc ++ [i] else fillLoop t rest (acc ++ [i])) = _
      by_cases ht : t ≤ (acc ++ [i]).length
      · rw [if_pos ht]
        have h1 : t - acc.length = 1 := by simp at ht; omega
        rw [h1]
        simp
      · rw [if_neg ht]
        have hlt' : (acc ++ [i]).length < t := by omega
        rw [ih (acc ++ [i]) hndrest hlt']
        have hfc : rest.filter (fun j => !((acc ++ [i]).contains j)) =
            rest.filter (fun j => !(acc.contains j)) := by
          apply List.filter_congr
          intro x hx
          have hxi : x ≠ i := fun hxI => hirest (hxI ▸ hx)
          simp [List.contains, hxi]
        have harith : t - acc.length = (t - (acc ++ [i]).length) + 1 := by
          simp at ht ⊢
          omega
        rw [hfc, harith, List.take_succ_cons, List.append_assoc]
        rfl

theorem length_filter_unseen (n : Nat) (kept : List Nat) (hnd : kept.Nodup)
    (hvalid : ∀ i ∈ kept, 1 ≤ i ∧ i ≤ n) :
    ((List.range' 1 n).filter (fun i => !(kept.contains i))).length = n - kept.length := by
  have hperm : List.Perm ((List.range' 1 n).filter (fun i => kept.contains i)) kept := by
    rw [List.perm_ext_iff_of_nodup (List.Nodup.filter _ (List.nodup_range' 1 n)) hnd]
    intro a
    constructor
    · intro ha
      have := (List.mem_filter.mp ha).2
      simpa [List.contains] using this
    · intro ha
      refine List.mem_filter.mpr ⟨?_, by simpa [List.contains] using ha⟩
      have := hvalid a ha
      simp only [List.mem_range'_1]
      omega
  have hpart := @List.length_eq_length_filter_add _ (List.range' 1 n)
    (fun i => kept.contains i)
  have hlen1 : ((List.range' 1 n).filter (fun i => kept.contains i)).length =
      kept.length := hperm.length_eq
  have hlen2 : (List.range' 1 n).length = n := by simp
  rw [hlen2, hlen1] at hpart
  omega

theorem selectIndices_eq_claimSelect (order : List JElem) (n t : Nat) :
    selectIndices order n t = claimSelect order n t := by
  rcases Nat.eq_zero_or_pos t with ht0 | htpos
  · subst ht0; simp [selectIndices, claimSelect]
  · rw [selectIndices, claimSelect]
    show (if (phase1 n t order []).length < t then
        fillLoop t (List.range' 1 n) (phase1 n t order []) else phase1 n t order []).take t = _
    rw [phase1_eq_specWalk n t order [] (by simpa using htpos)]
    obtain ⟨knd, kvalid, klen⟩ := specWalk_props n t order []
      (by simp) (by simp) (by simp)
    by_cases hlt : (specWalk n t order []).length < t
    · rw [if_pos hlt, fillLoop_eq t (List.range' 1 n) _ (List.nodup_range' 1 n) hlt]
      rw [List.take_append_eq_append_take, List.take_append_eq_append_take,
        List.take_of_length_le (le_of_lt hlt), List.take_take]
      simp
    · rw [if_neg hlt]
      have hk : (specWalk n t order []).length = t := by omega
      rw [List.take_append_eq_append_take, List.take_of_length_le (le_of_eq hk), hk,
        Nat.sub_self]
      simp

theorem selectIndices_props (order : List JElem) (n t : Nat) (ht : t ≤ n) :
    (selectIndices order n t).length = t ∧
    (selectIndices order n t).Nodup ∧
    (∀ i ∈ selectIndices order n t, 1 ≤ i ∧ i ≤ n) := by
  rw [selectIndices_eq_claimSelect, claimSelect]
  obtain ⟨knd, kvalid, klen⟩ := specWalk_props n t order [] (by simp) (by simp) (by simp)
  have hFnd : ((List.range' 1 n).filter
      (fun i => !((specWalk n t order []).contains i))).Nodup :=
    List.Nodup.filter _ (List.nodup_range' 1 n)
  have hFvalid : ∀ i ∈ (List.range' 1 n).filter
      (fun i => !((specWalk n t order []).contains i)), 1 ≤ i ∧ i ≤ n := by
    intro i hi
    have := (List.mem_filter.mp hi).1
    simp only [List.mem_range'_1] at this
    omega
  have hFnotkept : ∀ i ∈ (List.range' 1 n).filter
      (fun i => !((specWalk n t order []).contains i)), i ∉ specWalk n t order [] := by
    intro i hi
    have := (List.mem_filter.mp hi).2
    simpa [List.contains] using this
  have happnd : (specWalk n t order [] ++ (List.range' 1 n).filter
      (fun i => !((specWalk n t order []).contains i))).Nodup := by
    rw [List.nodup_append]
    exact ⟨knd, hFnd, fun a ha hb => hFnotkept a hb ha⟩
  have hlenF : ((List.range' 1 n).filter
      (fun i => !((specWalk n t order []).contains i))).length =
      n - (specWalk n t order []).length := length_filter_unseen n _ knd kvalid
  have hlen : (specWalk n t order [] ++ (List.range' 1 n).filter
      (fun i => !((specWalk n t order []).contains i))).length = n := by
    rw [List.length_append, hlenF]
    have : (specWalk n t order []).length ≤ n := le_trans klen ht
    omega
  refine ⟨?_, ?_, ?_⟩
  · rw [List.length_take, hlen]; omega
  · exact List.Sublist.nodup (List.take_sublist t _) happnd
  · intro i hi
    have hmem : i ∈ specWalk n t order [] ++ (List.range' 1 n).filter
        (fun i => !((specWalk n t order []).contains i)) := List.mem_of_mem_take hi
    rcases List.mem_append.mp hmem with h | h
    exacts [kvalid i h, hFvalid i h]

end MealPlanner

namespace MealPlanner

/-! ## Claim C2 -/

/-- C2: given a parsed provider list, the adapter keeps the first
occurrence of each integer `k` with `1 ≤ k ≤ |candidates|` not already
kept, stopping at `target_count`, then fills the remaining slots by
walking indices `1..|candidates|` in ascending order skipping indices
already kept (`claimSelect` is the spec-side description of this
process); over 3 candidates with `target_count = 3`, the provider
response `"[1, 99, 2, 0, 3]"` yields the recipes at indices 1, 2, 3 in
that order. -/
theorem adapter_index_selection :
    (∀ (order : List JElem) (n t : Nat),
      selectIndices order n t = claimSelect order n t) ∧
    generate_meal_plan_with_ai [cand1, cand2, cand3] (some 3) .openai
      (.ok ['[', '1', ',', ' ', '9', '9', ',', ' ', '2', ',', ' ', '0', ',', ' ', '3', ']']) =
      [cand1, cand2, cand3] :=
  ⟨fun order n t => selectIndices_eq_claimSelect order n t, by decide⟩

/-! ## Claim C3 -/

/-- C3: if the JSON parse of the post-processed provider text fails and
the text starts with `'['` but does not end with `']'`, the adapter
attempts exactly one repair — strip trailing commas, append `']'`,
reparse — using the reparsed value when the repair succeeds and the
fallback when it fails; in particular `"[1, 2,"` is repaired to
`"[1, 2]"` and then index-filled as usual. -/
theorem adapter_truncated_repair :
    (∀ (recipes : List Recipe) (days : Option Int) (prov : Provider) (raw : Text),
      recipes ≠ [] →
      pyJsonLoads (adapterText prov raw) = none →
      (adapterText prov raw).head? = some '[' →
      (adapterText prov raw).getLast? ≠ some ']' →
      generate_meal_plan_with_ai recipes days prov (.ok raw) =
        (match pyJsonLoads (repairText (adapterText prov raw)) with
         | some v => processParsed v recipes (adapterTarget recipes days)
             (recipes.take (adapterTarget recipes days))
         | none => recipes.take (adapterTarget recipes days))) ∧
    repairText ['[', '1', ',', ' ', '2', ','] = ['[', '1', ',', ' ', '2', ']'] ∧
    generate_meal_plan_with_ai [cand1, cand2, cand3] (some 3) .openai
      (.ok ['[', '1', ',', ' ', '2', ',']) = [cand1, cand2, cand3] := by
  refine ⟨?_, by decide, by decide⟩
  intro recipes days prov raw hne hparse hhead hlast
  have hrne : recipes.isEmpty = false := by
    cases recipes with
    | nil => exact absurd rfl hne
    | cons a l => rfl
  have htne : (adapterText prov raw).isEmpty = false := by
    cases h : adapterText prov raw with
    | nil => rw [h] at hhead; simp at hhead
    | cons a l => rfl
  simp only [generate_meal_plan_with_ai, hrne, Bool.false_eq_true, if_false, htne, hparse]
  rw [if_pos ⟨hhead, hlast⟩]

/-! ## Claim C1 -/

theorem gen_shape (recipes : List Recipe) (days : Option Int) (prov : Provider)
    (outcome : Outcome) :
    generate_meal_plan_with_ai recipes days prov outcome =
      recipes.take (adapterTarget recipes days) ∨
    ∃ order : List JElem,
      generate_meal_plan_with_ai recipes days prov outcome =
        (selectIndices order recipes.length (adapterTarget recipes days)).map
          (fun i => recipes.getD (i - 1) default) := by
  by_cases hre : recipes.isEmpty
  · left
    have hnil : recipes = [] := List.isEmpty_iff.mp hre
    subst hnil
    simp [generate_meal_plan_with_ai]
  · have hre' : recipes.isEmpty = false := by simpa using hre
    cases outcome with
    | throws => left; simp [generate_meal_plan_with_ai, hre']
    | ok raw =>
      simp only [generate_meal_plan_with_ai, hre', Bool.false_eq_true, if_false]
      by_cases hte : (adapterText prov raw).isEmpty
      · left; simp [hte]
      · have hte' : (adapterText prov raw).isEmpty = false := by simpa using hte
        simp only [hte', Bool.false_eq_true, if_false]
        cases hp : pyJsonLoads (adapterText prov raw) with
        | some v =>
          cases v with
          | jnonarr => left; simp [processParsed]
          | jarr order => right; exact ⟨order, by simp [processParsed]⟩
        | none =>
          by_cases hcond : (adapterText prov raw).head? = some '[' ∧
              (adapterText prov raw).getLast? ≠ some ']'
          · rw [if_pos hcond]
            cases hp2 : pyJsonLoads (repairText (adapterText prov raw)) with
            | some v =>
              cases v with
              | jnonarr => left; simp [processParsed]
              | jarr order => right; exact ⟨order, by simp [processParsed]⟩
            | none => left; rfl
          · rw [if_neg hcond]; left; rfl

theorem gen_throws (recipes : List Recipe) (days : Option Int) (prov : Provider) :
    generate_meal_plan_with_ai recipes days prov .throws =
      recipes.take (adapterTarget recipes days) := by
  by_cases hre : recipes.isEmpty
  · have hnil : recipes = [] := List.isEmpty_iff.mp hre
    subst hnil
    simp [generate_meal_plan_with_ai]
  · have hre' : recipes.isEmpty = false := by simpa using hre
    simp [generate_meal_plan_with_ai, hre']

theorem gen_empty_text (recipes : List Recipe) (days : Option Int) (prov : Provider)
    (raw : Text) (hte : adapterText prov raw = []) :
    generate_meal_plan_with_ai recipes days prov (.ok raw) =
      recipes.take (adapterTarget recipes days) := by
  by_cases hre : recipes.isEmpty
  · have hnil : recipes = [] := List.isEmpty_iff.mp hre
    subst hnil
    simp [generate_meal_plan_with_ai]
  · have hre' : recipes.isEmpty = false := by simpa using hre
    simp [generate_meal_plan_with_ai, hre', hte]

theorem gen_unparsable (recipes : List Recipe) (days : Option Int) (prov : Provider)
    (raw : Text) (h1 : pyJsonLoads (adapterText prov raw) = none)
    (h2 : pyJsonLoads (repairText (adapterText prov raw)) = none) :
    generate_meal_plan_with_ai recipes days prov (.ok raw) =
      recipes.take (adapterTarget recipes days) := by
  by_cases hre : recipes.isEmpty
  · have hnil : recipes = [] := List.isEmpty_iff.mp hre
    subst hnil
    simp [generate_meal_plan_with_ai]
  · have hre' : recipes.isEmpty = false := by simpa using hre
    simp only [generate_meal_plan_with_ai, hre', Bool.false_eq_true, if_false]
    by_cases hte : (adapterText prov raw).isEmpty
    · simp [hte]
    · have hte' : (adapterText prov raw).isEmpty = false := by simpa using hte
      simp only [hte', Bool.false_eq_true, if_false, h1]
      by_cases hcond : (adapterText prov raw).head? = some '[' ∧
          (adapterText prov raw).getLast? ≠ some ']'
      · rw [if_pos hcond, h2]
      · rw [if_neg hcond]

theorem gen_nonarr (recipes : List Recipe) (days : Option Int) (prov : Provider)
    (raw : Text) (h1 : pyJsonLoads (adapterText prov raw) = some .jnonarr) :
    generate_meal_plan_with_ai recipes days prov (.ok raw) =
      recipes.take (adapterTarget recipes days) := by
  by_cases hre : recipes.isEmpty
  · have hnil : recipes = [] := List.isEmpty_iff.mp hre
    subst hnil
    simp [generate_meal_plan_with_ai]
  · have hre' : recipes.isEmpty = false := by simpa using hre
    simp only [generate_meal_plan_with_ai, hre', Bool.false_eq_true, if_false]
    by_cases hte : (adapterText prov raw).isEmpty
    · simp [hte]
    · have hte' : (adapterText prov raw).isEmpty = false := by simpa using hte
      simp only [hte', Bool.false_eq_true, if_false, h1]
      rfl

theorem take_eq_map_range' (recipes : List Recipe) (t : Nat) (ht : t ≤ recipes.length) :
    recipes.take t = (List.range' 1 t).map (fun i => recipes.getD (i - 1) default) := by
  apply List.ext_getElem
  · simp
    omega
  · intro j h1 h2
    simp only [List.getElem_take, List.getElem_map, List.getElem_range']
    have hj : 1 + 1 * j - 1 = j := by omega
    rw [hj]
    have hjl : j < recipes.length := by
      simp at h1
      omega
    rw [List.getD_eq_getElem?_getD, List.getElem?_eq_getElem hjl]
    rfl

theorem adapterTarget_some (recipes : List Recipe) (target : Nat) :
    adapterTarget recipes (some ((target : Nat) : Int)) = min target recipes.length := by
  rw [adapterTarget, Option.getD_some]
  have h1 : max ((target : Nat) : Int) 0 = ((target : Nat) : Int) :=
    max_eq_left (Int.natCast_nonneg target)
  rw [h1, ← Nat.cast_min, Int.toNat_natCast]

/-- C1: for every candidate list and every `target_count`, the adapter
never raises (it is a total function of the provider-call oracle) and
returns exactly `min(target_count, |candidates|)` distinct recipes drawn
from the candidates (witnessed by a duplicate-free list of in-range
1-based indices); on any internal failure — provider exception, empty
post-processed response, JSON that stays unparsable after the repair
attempt, or a parsed non-list value — it returns the deterministic
fallback, the first `target_count` candidates in input order
(`recipes.take (min target |recipes|)`, which equals
`recipes.take target_count`). -/
theorem adapter_contract (recipes : List Recipe) (target : Nat) (prov : Provider)
    (outcome : Outcome) :
    (generate_meal_plan_with_ai recipes (some ((target : Nat) : Int)) prov outcome).length =
      min target recipes.length ∧
    (∃ idxs : List Nat, idxs.Nodup ∧ (∀ i ∈ idxs, 1 ≤ i ∧ i ≤ recipes.length) ∧
      generate_meal_plan_with_ai recipes (some ((target : Nat) : Int)) prov outcome =
        idxs.map (fun i => recipes.getD (i - 1) default)) ∧
    (outcome = .throws →
      generate_meal_plan_with_ai recipes (some ((target : Nat) : Int)) prov outcome =
        recipes.take (min target recipes.length)) ∧
    (∀ raw, outcome = .ok raw → adapterText prov raw = [] →
      generate_meal_plan_with_ai recipes (some ((target : Nat) : Int)) prov outcome =
        recipes.take (min target recipes.length)) ∧
    (∀ raw, outcome = .ok raw → pyJsonLoads (adapterText prov raw) = none →
      pyJsonLoads (repairText (adapterText prov raw)) = none →
      generate_meal_plan_with_ai recipes (some ((target : Nat) : Int)) prov outcome =
        recipes.take (min target recipes.length)) ∧
    (∀ raw, outcome = .ok raw →
      pyJsonLoads (adapterText prov raw) = some .jnonarr →
      generate_meal_plan_with_ai recipes (some ((target : Nat) : Int)) prov outcome =
        recipes.take (min target recipes.length)) := by
  have htarg := adapterTarget_some recipes target
  have htle : min target recipes.length ≤ recipes.length := Nat.min_le_right _ _
  refine ⟨?_, ?_, ?_, ?_, ?_, ?_⟩
  · rcases gen_shape recipes (some target) prov outcome with h | ⟨order, h⟩
    · rw [h, htarg, List.length_take]
      omega
    · rw [h, List.length_map, htarg]
      exact (selectIndices_props order recipes.length _ htle).1
  · rcases gen_shape recipes (some target) prov outcome with h | ⟨order, h⟩
    · refine ⟨List.range' 1 (min target recipes.length), List.nodup_range' 1 _, ?_, ?_⟩
      · intro i hi
        simp only [List.mem_range'_1] at hi
        omega
      · rw [h, htarg, take_eq_map_range' recipes _ htle]
    · obtain ⟨hl, hnd, hval⟩ := selectIndices_props order recipes.length
        (min target recipes.length) htle
      refine ⟨selectIndices order recipes.length (min target recipes.length), hnd, hval, ?_⟩
      rw [h, htarg]
  · intro hthrow
    subst hthrow
    rw [gen_throws, htarg]
  · intro raw hok hte
    subst hok
    rw [gen_empty_text recipes _ prov raw hte, htarg]
  · intro raw hok h1 h2
    subst hok
    rw [gen_unparsable recipes _ prov raw h1 h2, htarg]
  · intro raw hok h1
    subst hok
    rw [gen_nonarr recipes _ prov raw h1, htarg]

/-- Witness for C1 at a concrete input: two candidates, `target = 5`,
provider call throws — the fallback `[cand1, cand2]` of length
`min 5 2 = 2` is returned. -/
theorem adapter_contract_witness :
    generate_meal_plan_with_ai [cand1, cand2] (some ((5 : Nat) : Int)) .openai .throws =
      [cand1, cand2] ∧
    (generate_meal_plan_with_ai [cand1, cand2] (some ((5 : Nat) : Int)) .openai
      .throws).length = min 5 2 := by
  have h := adapter_contract [cand1, cand2] 5 .openai .throws
  constructor
  · rw [h.2.2.1 rfl]
    decide
  · simpa using h.1

/-- Witness for C3 at a concrete input: the truncated response `"[9,"`
is repaired to `"[9]"`, whose only index is out of range for one
candidate, so the fill loop produces `[cand1]`. -/
theorem adapter_truncated_repair_witness :
    pyJsonLoads (adapterText .openai ['[', '9', ',']) = none ∧
    generate_meal_plan_with_ai [cand1] (some 1) .openai (.ok ['[', '9', ',']) = [cand1] := by
  have h := adapter_truncated_repair.1 [cand1] (some 1) .openai ['[', '9', ',']
    (by decide) (by decide) (by decide) (by decide)
  refine ⟨by decide, ?_⟩
  rw [h]
  decide

end MealPlanner

namespace MealPlanner

/-! ## Claim C7 -/

theorem mem_planKeys (p : MealPlanEntry) (k : UsedKey) :
    k ∈ planKeys p ↔ ∃ pr ∈ p.recipes,
      ((∃ i, pr.id = some i ∧ k = .byId i) ∨
       (pyNormName pr.name ≠ "" ∧ k = .byName (pyNormName pr.name))) := by
  rw [planKeys, List.mem_flatMap]
  constructor
  · rintro ⟨pr, hpr, hk⟩
    refine ⟨pr, hpr, ?_⟩
    rcases List.mem_append.mp hk with h | h
    · left
      cases hid : pr.id with
      | none => rw [hid] at h; simp at h
      | some i =>
        rw [hid] at h
        simp only [Option.elim_some, List.mem_singleton] at h
        exact ⟨i, rfl, h⟩
    · right
      by_cases hnm : pyNormName pr.name ≠ ""
      · rw [if_pos hnm] at h
        simp only [List.mem_singleton] at h
        exact ⟨hnm, h⟩
      · rw [if_neg hnm] at h; simp at h
  · rintro ⟨pr, hpr, h⟩
    refine ⟨pr, hpr, List.mem_append.mpr ?_⟩
    rcases h with ⟨i, hid, hk⟩ | ⟨hnm, hk⟩
    · left; rw [hid, hk]; simp
    · right; rw [if_pos hnm, hk]; simp

theorem mem_recipesUsedInRecentPlans (meal_plans : List MealPlanEntry)
    (ref lookback : Int) (k : UsedKey) :
    k ∈ recipesUsedInRecentPlans meal_plans ref lookback ↔
      ∃ p ∈ meal_plans, ∃ ps, parsePlanStartDate p = some ps ∧
        0 < planEffectiveDays p ∧
        ref - lookback ≤ ps + planEffectiveDays p - 1 ∧ ps ≤ ref - 1 ∧
        k ∈ planKeys p := by
  rw [recipesUsedInRecentPlans, List.mem_flatMap]
  constructor
  · rintro ⟨p, hp, hk⟩
    refine ⟨p, hp, ?_⟩
    rw [planWindowKeys] at hk
    cases hps : parsePlanStartDate p with
    | none => rw [hps] at hk; simp at hk
    | some ps =>
      rw [hps] at hk
      simp only [Option.elim_some] at hk
      by_cases hpd : planEffectiveDays p ≤ 0
      · rw [if_pos hpd] at hk; simp at hk
      · rw [if_neg hpd] at hk
        by_cases hov : ps + planEffectiveDays p - 1 < ref - lookback ∨ ref - 1 < ps
        · rw [if_pos hov] at hk; simp at hk
        · rw [if_neg hov] at hk
          push_neg at hov
          exact ⟨ps, rfl, by omega, hov.1, hov.2, hk⟩
  · rintro ⟨p, hp, ps, hps, hpd, h1, h2, hk⟩
    refine ⟨p, hp, ?_⟩
    rw [planWindowKeys, hps]
    simp only [Option.elim_some]
    rw [if_neg (by omega), if_neg (by push_neg; exact ⟨by omega, by omega⟩)]
    exact hk

/-- C7: the recency exclusion removes exactly those category-eligible
recipes whose identity (matched by id OR by case/whitespace-normalized
name) appears in some historical plan with a parsable start date whose
effective date range `[start, start + day_count - 1]` (day count taken
from the plan's `days` field, else its recipe count) overlaps
`[period_start - 14, period_start - 1]`; a plan without a parsable
start date never contributes to the exclusion. -/
theorem recency_exclusion_characterization
    (all_recipes : List Recipe) (meal_plans : List MealPlanEntry)
    (plan_start_date : Int) (r : Recipe) :
    r ∈ filterRecentlyUsed (mainDishes all_recipes) meal_plans plan_start_date ↔
      (r ∈ all_recipes ∧ (r.category.getD "") ∈ MAIN_DISH_CATEGORIES ∧
       ¬ ∃ p ∈ meal_plans, ∃ ps, parsePlanStartDate p = some ps ∧
           0 < planEffectiveDays p ∧
           plan_start_date - 14 ≤ ps + planEffectiveDays p - 1 ∧
           ps ≤ plan_start_date - 1 ∧
           ∃ pr ∈ p.recipes,
             ((∃ i, r.id = some i ∧ pr.id = some i) ∨
              (pyNormName r.name ≠ "" ∧ pyNormName pr.name = pyNormName r.name))) := by
  rw [filterRecentlyUsed, List.mem_filter]
  have hmain : r ∈ mainDishes all_recipes ↔
      r ∈ all_recipes ∧ (r.category.getD "") ∈ MAIN_DISH_CATEGORIES := by
    rw [mainDishes, List.mem_filter]
    constructor
    · intro ⟨h1, h2⟩
      exact ⟨h1, by simpa [List.contains] using h2⟩
    · intro ⟨h1, h2⟩
      exact ⟨h1, by simpa [List.contains] using h2⟩
  rw [hmain, and_assoc]
  apply and_congr_right
  intro _
  apply and_congr_right
  intro _
  simp only [Bool.and_eq_true, Bool.not_eq_true', decide_eq_true_eq,
    Bool.not_eq_false']
  constructor
  · intro h hex
    obtain ⟨p, hp, ps, hps, hpd, h1, h2, pr, hpr, hmatch⟩ := hex
    rcases hmatch with ⟨i, hrid, hprid⟩ | ⟨hnm, hpreq⟩
    · have hidmem : UsedKey.byId i ∈
          recipesUsedInRecentPlans meal_plans plan_start_date 14 := by
        rw [mem_recipesUsedInRecentPlans]
        exact ⟨p, hp, ps, hps, hpd, h1, h2,
          (mem_planKeys p _).mpr ⟨pr, hpr, Or.inl ⟨i, hprid, rfl⟩⟩⟩
      have := h.1
      rw [hrid] at this
      simp only [Option.elim_some] at this
      rw [List.contains] at this
      simp [hidmem] at this
    · have hnmmem : UsedKey.byName (pyNormName r.name) ∈
          recipesUsedInRecentPlans meal_plans plan_start_date 14 := by
        rw [mem_recipesUsedInRecentPlans]
        refine ⟨p, hp, ps, hps, hpd, h1, h2,
          (mem_planKeys p _).mpr ⟨pr, hpr, Or.inr ⟨?_, by rw [hpreq]⟩⟩⟩
        rw [hpreq]
        exact hnm
      have h2' := Bool.and_eq_false_iff.mp h.2
      rcases h2' with hceq | hcontains
      · exact hnm (by simpa using hceq)
      · rw [List.contains] at hcontains
        simp [hnmmem] at hcontains
  · intro hnex
    constructor
    · cases hrid : r.id with
      | none => simp
      | some i =>
        simp only [Option.elim_some]
        rw [List.contains]
        simp only [List.elem_eq_mem, decide_eq_false_iff_not]
        intro hidmem
        rw [mem_recipesUsedInRecentPlans] at hidmem
        obtain ⟨p, hp, ps, hps, hpd, h1, h2, hk⟩ := hidmem
        obtain ⟨pr, hpr, hmatch⟩ := (mem_planKeys p _).mp hk
        rcases hmatch with ⟨j, hprid, hkeq⟩ | ⟨hnm, hkeq⟩
        · have hij : j = i := by
            injection hkeq with h'
            exact h'.symm
          subst hij
          exact hnex ⟨p, hp, ps, hps, hpd, h1, h2, pr, hpr, Or.inl ⟨j, hrid, hprid⟩⟩
        · simp at hkeq
    · rw [Bool.and_eq_false_iff]
      by_cases hnm : pyNormName r.name = ""
      · left; simpa using hnm
      · right
        rw [List.contains]
        simp only [List.elem_eq_mem, decide_eq_false_iff_not]
        intro hnmmem
        rw [mem_recipesUsedInRecentPlans] at hnmmem
        obtain ⟨p, hp, ps, hps, hpd, h1, h2, hk⟩ := hnmmem
        obtain ⟨pr, hpr, hmatch⟩ := (mem_planKeys p _).mp hk
        rcases hmatch with ⟨j, hprid, hkeq⟩ | ⟨hnm', hkeq⟩
        · simp at hkeq
        · have heq : pyNormName pr.name = pyNormName r.name := by
            injection hkeq with h'
            exact h'.symm
          exact hnex ⟨p, hp, ps, hps, hpd, h1, h2, pr, hpr, Or.inr ⟨hnm, heq⟩⟩

end MealPlanner

namespace MealPlanner

/-! ## Grocery aggregation lemmas -/

theorem gRecipeFold_eq (r : Recipe) (m : List (String × GEntry)) :
    gRecipeFold m r = (recipeContribs r).foldl gApply m := by
  rw [gRecipeFold, recipeContribs]
  generalize r.ingredients = ings
  induction ings generalizing m with
  | nil => rfl
  | cons ing rest ih =>
    simp only [List.foldl_cons]
    by_cases hne : pyLower ing.item ≠ ""
    · have hf : ingContrib r.name ing =
          some { key := pyLower ing.item, qv := ing.quantity.getD (.num 0),
                 unit := ing.unit, rname := r.name } := by
        rw [ingContrib, if_pos hne]
      rw [if_pos hne, List.filterMap_cons_some hf, List.foldl_cons]
      exact ih _
    · have hf : ingContrib r.name ing = none := by
        rw [ingContrib, if_neg hne]
      rw [if_neg hne, List.filterMap_cons_none hf]
      exact ih m

theorem gFold_eq_flatContribs (recipes : List Recipe) : ∀ m,
    recipes.foldl gRecipeFold m = (flatContribs recipes).foldl gApply m := by
  induction recipes with
  | nil => intro m; rfl
  | cons r rest ih =>
    intro m
    rw [List.foldl_cons, flatContribs, List.flatMap_cons, List.foldl_append,
      ← gRecipeFold_eq]
    exact ih _

theorem gFind_gUpdate_self (k : String) (qv : PyVal) (u rn : String) :
    ∀ m, gFind (gUpdate m k qv u rn) k = some (gStep ((gFind m k).getD {}) qv u rn) := by
  intro m
  induction m with
  | nil => simp [gUpdate, gFind]
  | cons p rest ih =>
    obtain ⟨k', e⟩ := p
    rw [gUpdate]
    by_cases hk : k' = k
    · subst hk
      rw [if_pos (show k' = k' from rfl), gFind, if_pos (show k' = k' from rfl),
        gFind, if_pos (show k' = k' from rfl)]
      rfl
    · rw [if_neg hk, gFind, if_neg hk, gFind, if_neg hk]
      exact ih

theorem gFind_gUpdate_other (k k' : String) (hne : k' ≠ k) (qv : PyVal) (u rn : String) :
    ∀ m, gFind (gUpdate m k qv u rn) k' = gFind m k' := by
  intro m
  induction m with
  | nil =>
    simp [gUpdate, gFind, Ne.symm hne]
  | cons p rest ih =>
    obtain ⟨k₀, e⟩ := p
    rw [gUpdate]
    by_cases hk : k₀ = k
    · subst hk
      rw [if_pos (show k₀ = k₀ from rfl), gFind,
        if_neg (show ¬ k₀ = k' from fun h => hne h.symm), gFind,
        if_neg (show ¬ k₀ = k' from fun h => hne h.symm)]
    · rw [if_neg hk, gFind, gFind]
      by_cases hk0 : k₀ = k'
      · rw [if_pos hk0, if_pos hk0]
      · rw [if_neg hk0, if_neg hk0]
        exact ih

theorem keys_gUpdate (k : String) (qv : PyVal) (u rn : String) :
    ∀ m, (gUpdate m k qv u rn).map Prod.fst =
      if k ∈ m.map Prod.fst then m.map Prod.fst else m.map Prod.fst ++ [k] := by
  intro m
  induction m with
  | nil => simp [gUpdate]
  | cons p rest ih =>
    obtain ⟨k₀, e⟩ := p
    rw [gUpdate]
    by_cases hk : k₀ = k
    · subst hk
      rw [if_pos rfl]
      simp
    · rw [if_neg hk]
      simp only [List.map_cons, List.mem_cons]
      rw [ih]
      by_cases hmem : k ∈ rest.map Prod.fst
      · rw [if_pos hmem, if_pos (Or.inr hmem)]
      · rw [if_neg hmem, if_neg (by rintro (h | h); exacts [hk h.symm, hmem h])]
        rfl

theorem mem_iff_gFind :
    ∀ (m : List (String × GEntry)), (m.map Prod.fst).Nodup →
      ∀ (k : String) (e : GEntry), (k, e) ∈ m ↔ gFind m k = some e := by
  intro m
  induction m with
  | nil => intro _ k e; simp [gFind]
  | cons p rest ih =>
    intro hnd k e
    obtain ⟨k₀, e₀⟩ := p
    simp only [List.map_cons, List.nodup_cons] at hnd
    obtain ⟨hk0, hndrest⟩ := hnd
    rw [gFind, List.mem_cons]
    by_cases hk : k₀ = k
    · subst hk
      rw [if_pos (show k₀ = k₀ from rfl)]
      constructor
      · rintro (h | h)
        · injection h with h1 h2
          rw [h2]
        · exact absurd (List.mem_map_of_mem Prod.fst h) hk0
      · intro h
        injection h with h2
        exact Or.inl (by rw [h2])
    · rw [if_neg hk]
      constructor
      · rintro (h | h)
        · exact absurd (congrArg Prod.fst h).symm hk
        · exact (ih hndrest k e).mp h
      · intro h
        exact Or.inr ((ih hndrest k e).mpr h)

theorem gFold_gFind (k : String) :
    ∀ (cs : List Contrib) (m : List (String × GEntry)),
      gFind (cs.foldl gApply m) k =
        combineEntry (gFind m k) (cs.filter (fun c => c.key = k)) := by
  intro cs
  induction cs with
  | nil =>
    intro m
    cases h : gFind m k <;> simp [combineEntry, h]
  | cons c rest ih =>
    intro m
    rw [List.foldl_cons, ih, List.filter_cons]
    by_cases hk : c.key = k
    · rw [if_pos (by simp [hk])]
      have hfind : gFind (gApply m c) k =
          some (gStep ((gFind m k).getD {}) c.qv c.unit c.rname) := by
        rw [gApply, hk]
        exact gFind_gUpdate_self k c.qv c.unit c.rname m
      rw [hfind]
      cases hm : gFind m k with
      | some e => simp [combineEntry, entryStep]
      | none => simp [combineEntry, buildEntry, entryStep]
    · rw [if_neg (by simp [hk])]
      rw [gApply, gFind_gUpdate_other c.key k (fun h => hk h.symm) c.qv c.unit c.rname m]

theorem keys_gFold :
    ∀ (cs : List Contrib) (m : List (String × GEntry)),
      ((m.map Prod.fst).Nodup → (((cs.foldl gApply m).map Prod.fst)).Nodup) ∧
      (∀ k, k ∈ (cs.foldl gApply m).map Prod.fst ↔
        k ∈ m.map Prod.fst ∨ k ∈ cs.map Contrib.key) := by
  intro cs
  induction cs with
  | nil => intro m; simp
  | cons c rest ih =>
    intro m
    rw [List.foldl_cons]
    have hkeys := keys_gUpdate c.key c.qv c.unit c.rname m
    constructor
    · intro hnd
      refine (ih (gApply m c)).1 ?_
      rw [gApply, hkeys]
      by_cases hmem : c.key ∈ m.map Prod.fst
      · rw [if_pos hmem]; exact hnd
      · rw [if_neg hmem]
        simp [List.nodup_append, hnd, hmem]
    · intro k
      rw [(ih (gApply m c)).2 k, gApply, hkeys, List.map_cons, List.mem_cons]
      by_cases hmem : c.key ∈ m.map Prod.fst
      · rw [if_pos hmem]
        constructor
        · rintro (h | h)
          exacts [Or.inl h, Or.inr (Or.inr h)]
        · rintro (h | h | h)
          exacts [Or.inl h, Or.inl (h ▸ hmem), Or.inr h]
      · rw [if_neg hmem]
        simp only [List.mem_append, List.mem_singleton]
        constructor
        · rintro ((h | h) | h)
          exacts [Or.inl h, Or.inr (Or.inl h), Or.inr (Or.inr h)]
        · rintro (h | h | h)
          exacts [Or.inl (Or.inl h), Or.inl (Or.inr h), Or.inr h]

theorem entryFold_quantity :
    ∀ (cs : List Contrib) (e : GEntry),
      (cs.foldl entryStep e).quantity = e.quantity + numericSum cs := by
  intro cs
  induction cs with
  | nil => intro e; simp [numericSum]
  | cons c rest ih =>
    intro e
    rw [List.foldl_cons, ih]
    cases hc : c.qv with
    | num q =>
      rw [entryStep, hc, gStep]
      simp [numericSum, pyQty, hc]
      ring
    | other =>
      rw [entryStep, hc, gStep]
      simp [numericSum, pyQty, hc]

theorem entryFold_original :
    ∀ (cs : List Contrib) (e : GEntry),
      (cs.foldl entryStep e).original =
        e.original ++ cs.map (fun c => (c.qv, c.unit, c.rname)) := by
  intro cs
  induction cs with
  | nil => intro e; simp
  | cons c rest ih =>
    intro e
    rw [List.foldl_cons, ih]
    cases hc : c.qv with
    | num q =>
      rw [entryStep, hc, gStep]
      simp [hc]
    | other =>
      rw [entryStep, hc, gStep]
      simp [hc]

theorem entryFold_unit :
    ∀ (cs : List Contrib) (e : GEntry),
      (cs.foldl entryStep e).unit = if e.unit = "" then firstUnit cs else e.unit := by
  intro cs
  induction cs with
  | nil =>
    intro e
    by_cases h : e.unit = "" <;> simp [firstUnit, h]
  | cons c rest ih =>
    intro e
    rw [List.foldl_cons, ih, firstUnit]
    cases hc : c.qv with
    | num q =>
      rw [entryStep, hc, gStep]
      by_cases he : e.unit = "" <;> by_cases hu : c.unit ≠ "" <;>
        simp [he, hu, isNum]
    | other =>
      rw [entryStep, hc, gStep]
      by_cases he : e.unit = "" <;> simp [he, isNum]

end MealPlanner

namespace MealPlanner

/-! ## Grocery list assembly lemmas -/

theorem grocery_keys_nodup (recipes : List Recipe) :
    ((recipes.foldl gRecipeFold []).map Prod.fst).Nodup := by
  rw [gFold_eq_flatContribs]
  exact (keys_gFold (flatContribs recipes) []).1 (by simp)

theorem grocery_keys_mem (recipes : List Recipe) (k : String) :
    k ∈ (recipes.foldl gRecipeFold []).map Prod.fst ↔
      k ∈ (flatContribs recipes).map Contrib.key := by
  rw [gFold_eq_flatContribs]
  have h := (keys_gFold (flatContribs recipes) []).2 k
  simpa using h

theorem grocery_entry (recipes : List Recipe) (k : String) (e : GEntry)
    (h : (k, e) ∈ recipes.foldl gRecipeFold []) :
    e = buildEntry ((flatContribs recipes).filter (fun c => c.key = k)) := by
  have hnd := grocery_keys_nodup recipes
  have hfind := (mem_iff_gFind _ hnd k e).mp h
  rw [gFold_eq_flatContribs, gFold_gFind k (flatContribs recipes) [],
    show gFind [] k = none from rfl, combineEntry] at hfind
  by_cases hF : ((flatContribs recipes).filter (fun c => c.key = k)).isEmpty
  · rw [if_pos hF] at hfind
    exact absurd hfind (by simp)
  · rw [if_neg hF] at hfind
    injection hfind with h'
    exact h'.symm

theorem grocery_line_shape (recipes : List Recipe) (line : GroceryLine)
    (h : line ∈ generate_grocery_list recipes) :
    line = gLine (line.item,
      buildEntry ((flatContribs recipes).filter (fun c => c.key = line.item))) := by
  rw [generate_grocery_list] at h
  obtain ⟨ke, hke, hgl⟩ := List.mem_map.mp h
  have hkem : ke ∈ recipes.foldl gRecipeFold [] :=
    (List.perm_insertionSort (fun a b => a.1.data ≤ b.1.data) _).subset hke
  obtain ⟨k, e⟩ := ke
  have hentry := grocery_entry recipes k e hkem
  have hitem : line.item = k := by rw [← hgl]; rfl
  rw [hitem, ← hentry]
  exact hgl.symm

end MealPlanner

namespace MealPlanner

/-! ## Claim C8 -/

/-- C8 counterexample: the source lowercases item names but does not
trim them, so the two ingredients `" Milk"` and `"Milk"` produce two
separate grocery lines, while the claim's trimmed-and-lowercased
grouping predicts a single distinct key. -/
theorem grocery_key_counterexample :
    (generate_grocery_list [milkRecipe]).length = 2 ∧
    (claimItemKeys [milkRecipe]).length = 1 ∧
    ¬ ((generate_grocery_list [milkRecipe]).length = (claimItemKeys [milkRecipe]).length) := by
  refine ⟨by decide, by decide, by decide⟩

/-- C8 as amended: the aggregator returns one line per distinct
lowercased (not trimmed) non-empty item name, sorted strictly ascending
by that key; each line's quantity is the arithmetic sum of the numeric
quantity contributions for the key (non-numeric or absent quantities
contribute 0 but are still recorded in the provenance, so items present
only with non-numeric quantities appear with quantity 0), and the
line's recipe provenance lists the contributing recipe names in
processing order. -/
theorem grocery_aggregation_amended (recipes : List Recipe) :
    ((generate_grocery_list recipes).map GroceryLine.item).Pairwise
      (fun a b => a.data < b.data) ∧
    (∀ k, k ∈ (generate_grocery_list recipes).map GroceryLine.item ↔
      k ∈ (flatContribs recipes).map Contrib.key) ∧
    (∀ line ∈ generate_grocery_list recipes,
      line.quantity =
        numericSum ((flatContribs recipes).filter (fun c => c.key = line.item)) ∧
      line.recipes =
        ((flatContribs recipes).filter (fun c => c.key = line.item)).map Contrib.rname) := by
  have hperm : List.Perm ((recipes.foldl gRecipeFold []).insertionSort
      (fun a b => a.1.data ≤ b.1.data)) (recipes.foldl gRecipeFold []) :=
    List.perm_insertionSort _ _
  have hitems : (generate_grocery_list recipes).map GroceryLine.item =
      ((recipes.foldl gRecipeFold []).insertionSort
        (fun a b => a.1.data ≤ b.1.data)).map Prod.fst := by
    rw [generate_grocery_list, List.map_map]
    rfl
  have hkeysnodup : (((recipes.foldl gRecipeFold []).insertionSort
      (fun a b => a.1.data ≤ b.1.data)).map Prod.fst).Nodup := by
    rw [(hperm.map Prod.fst).nodup_iff]
    exact grocery_keys_nodup recipes
  refine ⟨?_, ?_, ?_⟩
  · rw [hitems, List.pairwise_map]
    haveI htot : IsTotal (String × GEntry) (fun a b => a.1.data ≤ b.1.data) :=
      ⟨fun a b => le_total a.1.data b.1.data⟩
    haveI htr : IsTrans (String × GEntry) (fun a b => a.1.data ≤ b.1.data) :=
      ⟨fun a b c hab hbc => le_trans hab hbc⟩
    have hsort := List.sorted_insertionSort
      (fun a b : String × GEntry => a.1.data ≤ b.1.data) (recipes.foldl gRecipeFold [])
    have hne : ((recipes.foldl gRecipeFold []).insertionSort
        (fun a b => a.1.data ≤ b.1.data)).Pairwise (fun a b => a.1 ≠ b.1) :=
      List.pairwise_map.mp hkeysnodup
    exact List.Pairwise.imp₂
      (fun a b h1 h2 => lt_of_le_of_ne h1 (fun hd => h2 (String.ext hd))) hsort hne
  · intro k
    rw [hitems, (hperm.map Prod.fst).mem_iff]
    exact grocery_keys_mem recipes k
  · intro line hline
    have hshape := grocery_line_shape recipes line hline
    constructor
    · have hq := congrArg GroceryLine.quantity hshape
      rw [hq]
      show (buildEntry _).quantity = _
      rw [buildEntry, entryFold_quantity]
      simp
    · have hr := congrArg GroceryLine.recipes hshape
      rw [hr]
      show (buildEntry _).original.map _ = _
      rw [buildEntry, entryFold_original]
      simp [List.map_map]

/-- Witness for C8 (amended) at a concrete input: the `" milk"` line of
`milkRecipe` has quantity equal to the numeric sum of its
contributions. -/
theorem grocery_aggregation_amended_witness :
    ({ item := " milk", quantity := 1, unit := "l",
       recipes := ["MilkPie"] } : GroceryLine) ∈ generate_grocery_list [milkRecipe] ∧
    ((1 : ℤ) =
      numericSum ((flatContribs [milkRecipe]).filter (fun c => c.key = " milk"))) := by
  have h := (grocery_aggregation_amended [milkRecipe]).2.2
    { item := " milk", quantity := 1, unit := "l", recipes := ["MilkPie"] } (by decide)
  exact ⟨by decide, h.1⟩

/-! ## Claim C9 -/

/-- C9 counterexample: the unit of a bucket is only updated for
contributions whose quantity is numeric (app.py lines 745-748), so a
first contribution with non-numeric quantity `"half"`-style and unit
`"cup"` is skipped, and the line's unit is `"liter"` (from the second,
numeric contribution), not the claim's first non-empty unit `"cup"`. -/
theorem grocery_unit_counterexample :
    generate_grocery_list [unitRecipe] =
      [{ item := "x", quantity := 2, unit := "liter", recipes := ["Mix", "Mix"] }] ∧
    claimFirstUnit ((flatContribs [unitRecipe]).filter (fun c => c.key = "x")) = "cup" ∧
    ¬ (∀ line ∈ generate_grocery_list [unitRecipe],
        line.unit = claimFirstUnit ((flatContribs [unitRecipe]).filter
          (fun c => c.key = line.item))) := by
  refine ⟨by decide, by decide, by decide⟩

/-- C9 as amended: each grocery line's unit is the first non-empty unit
among the contributions for its key whose quantity value is numeric
(an absent quantity defaults to the numeric 0, so its unit counts), in
input recipe order and then ingredient order. -/
theorem grocery_unit_amended (recipes : List Recipe) :
    ∀ line ∈ generate_grocery_list recipes,
      line.unit = firstUnit ((flatContribs recipes).filter (fun c => c.key = line.item)) := by
  intro line hline
  have hshape := grocery_line_shape recipes line hline
  have hu := congrArg GroceryLine.unit hshape
  rw [hu]
  show (buildEntry _).unit = _
  rw [buildEntry, entryFold_unit]
  rfl

/-- Witness for C9 (amended) at a concrete input: the single `"x"` line
of `unitRecipe` carries the unit `"liter"`, the first non-empty unit of
a numeric contribution. -/
theorem grocery_unit_amended_witness :
    ({ item := "x", quantity := 2, unit := "liter",
       recipes := ["Mix", "Mix"] } : GroceryLine) ∈ generate_grocery_list [unitRecipe] ∧
    ("liter" = firstUnit ((flatContribs [unitRecipe]).filter (fun c => c.key = "x"))) := by
  have h := grocery_unit_amended [unitRecipe]
    { item := "x", quantity := 2, unit := "liter", recipes := ["Mix", "Mix"] } (by decide)
  exact ⟨by decide, h⟩

end MealPlanner
